import Mathlib

/-!
Verification of the Marketer content-generation pipeline (src/main.py).

The program is embedded shallowly over `List Char` (Python `str` values are
character lists).  External effects are passed in explicitly:

  * the Gemini text service is an oracle giving, per call, either a response
    text or a failure (`Except Unit (List Char)`); the prompt built by the
    Python code only influences which outcome the environment yields, so the
    oracles are indexed by call rather than by prompt text;
  * the wall clock appears as a `strftime` oracle `List Char → List Char`;
  * file writes are recorded in the run result instead of touching a disk.

Python semantics modelled character-for-character:

  * `str.strip()` removes leading and trailing whitespace
    (space, tab, newline, carriage return, vertical tab, form feed);
  * `text.split(chr(10))` splits on every newline, keeping empty pieces;
  * `sub in s` is substring containment;
  * `s.split(sep, 1)[1]` is the text after the first occurrence of `sep`,
    raising IndexError (modelled as `none`) when `sep` does not occur.
-/

/-- Whitespace characters stripped by Python `str.strip()` (ASCII range). -/
def isPySpace (c : Char) : Bool :=
  (c == ' ') || (c == '\t') || (c == '\n') || (c == '\r') || (c == '\x0b') || (c == '\x0c')

/-- Python `str.lstrip()`: drop the leading whitespace run. -/
def lstripL (s : List Char) : List Char :=
  s.dropWhile isPySpace

/-- Python `str.rstrip()`: drop the trailing whitespace run. -/
def rstripL : List Char → List Char
  | [] => []
  | c :: rest =>
    match rstripL rest with
    | [] => if isPySpace c then [] else [c]
    | d :: r => c :: d :: r

/-- Python `str.strip()`: drop whitespace at both ends. -/
def stripL (s : List Char) : List Char :=
  rstripL (lstripL s)

/-- Python `text.split(chr(10))`: split at every newline; `splitLines []`
is `[[]]` just as the Python split of the empty string is a one-element
list holding the empty string. -/
def splitLines : List Char → List (List Char)
  | [] => [[]]
  | c :: rest =>
    if c = '\n' then [] :: splitLines rest
    else
      match splitLines rest with
      | [] => [[c]]
      | l :: ls => (c :: l) :: ls

/-- Join lines with newline separators; the left inverse of `splitLines`. -/
def joinLines : List (List Char) → List Char
  | [] => []
  | [l] => l
  | l :: l₂ :: ls => l ++ '\n' :: joinLines (l₂ :: ls)

/-- Python substring test `pat in s`. -/
def containsSub (pat : List Char) : List Char → Bool
  | [] => pat.isPrefixOf []
  | c :: rest => pat.isPrefixOf (c :: rest) || containsSub pat rest

/-- The text after the first occurrence of `pat`, that is
`s.split(pat, 1)[1]` in Python; `none` when `pat` does not occur
(Python raises IndexError on the `[1]`). -/
def afterFirst (pat : List Char) : List Char → Option (List Char)
  | [] => if pat.isPrefixOf ([] : List Char) then some [] else none
  | c :: rest =>
    if pat.isPrefixOf (c :: rest) then some ((c :: rest).drop pat.length)
    else afterFirst pat rest

/-- The delimiter of the numbered-list parser, the two characters ". ". -/
def delim : List Char := ['.', ' ']

/-- One step of the list comprehension in `generate_post_ideas`
(src/main.py line 39) applied to one `line` of the stripped response:

  * `some none` — the guard `". " in line` fails, the line is filtered out;
  * `some (some idea)` — the guard holds and
    `line.strip().split(". ", 1)[1]` yields `idea`;
  * `none` — the guard holds but the stripped line no longer contains the
    delimiter, so the `[1]` raises IndexError. -/
def ideaOfLine (line : List Char) : Option (Option (List Char)) :=
  if containsSub delim line then
    match afterFirst delim (stripL line) with
    | some rest => some (some rest)
    | none => none
  else some none

/-- The whole list comprehension over the lines; `none` when any line raises
IndexError, which aborts the comprehension and discards every idea. -/
def ideasOfLines : List (List Char) → Option (List (List Char))
  | [] => some []
  | l :: ls =>
    match ideaOfLine l, ideasOfLines ls with
    | none, _ => none
    | some none, r => r
    | some (some x), some xs => some (x :: xs)
    | some (some _), none => none

/-- The body of the `try` block of `generate_post_ideas` applied to a
response text: strip the text, split into lines, run the comprehension;
an IndexError falls into the blanket `except`, which returns `[]`. -/
def parse_ideas (text : List Char) : List (List Char) :=
  match ideasOfLines (splitLines (stripL text)) with
  | some ideas => ideas
  | none => []

/-- `generate_post_ideas` (src/main.py lines 22-44).  `svc` is the outcome of
the one `text_model.generate_content(prompt)` call: a response text on
success, or a raised exception.  Any exception is caught by the blanket
`except`, which logs and returns the empty list. -/
def generate_post_ideas (svc : Except Unit (List Char)) : List (List Char) :=
  match svc with
  | .ok text => parse_ideas text
  | .error _ => []

/-- The fixed sentinel caption returned when a caption call fails. -/
def errCaption : List Char := "Error: Could not generate caption.".data

/-- `generate_caption` (src/main.py lines 46-62).  `svc` is the outcome of
the `text_model.generate_content(prompt)` call for this idea; on success the
response text is returned stripped, on failure the fixed sentinel. -/
def generate_caption (svc : Except Unit (List Char)) : List Char :=
  match svc with
  | .ok response => stripL response
  | .error _ => errCaption

/-- The fixed placeholder URL returned on image-generation failure. -/
def errImageUrl : List Char :=
  "https://placehold.co/600x400/FF0000/FFFFFF?text=Image+Error".data

/-- The templated placeholder URL body, to which the post number is
appended by the f-string on src/main.py line 79. -/
def imageUrlBase : List Char :=
  "https://placehold.co/600x400/1E90FF/FFFFFF?text=Image+for+Post+".data

/-- `generate_image` (src/main.py lines 65-84): a placeholder that ignores
its prompt and returns a templated URL embedding the post number; the
`except` arm (dead code in the placeholder body, kept for fidelity and
reachable once a real API call is substituted) returns the fixed error URL.
`fails` says whether the body raised. -/
def generate_image (image_prompt : List Char) (post_number : Nat) (fails : Bool) : List Char :=
  if fails then errImageUrl
  else imageUrlBase ++ (Nat.repr post_number).data

/-- A JSON value as returned by Python `json.load` (numbers restricted to
integers; floats do not appear in the strategy file format). -/
inductive Json where
  | null : Json
  | bool (b : Bool) : Json
  | num (n : Int) : Json
  | str (s : List Char) : Json
  | arr (xs : List Json) : Json
  | obj (kvs : List (List Char × Json)) : Json

/-- Python truthiness of a JSON value, as tested by `if not strategy:`
(src/main.py line 113): None, False, 0, empty string, empty list and empty
dict are falsy. -/
def Json.truthy : Json → Bool
  | .null => false
  | .bool b => b
  | .num n => n != 0
  | .str s => !s.isEmpty
  | .arr xs => !xs.isEmpty
  | .obj kvs => !kvs.isEmpty

/-- A Post as assembled on src/main.py lines 131-135. -/
structure Post where
  idea : List Char
  caption : List Char
  image_path : List Char
deriving DecidableEq

/-- The image prompt f-string of src/main.py line 126
(`\x27` is the apostrophe character). -/
def imagePromptFor (idea visualStyle : List Char) : List Char :=
  "Create an image for a social media post about \x27".data ++ idea ++
    "\x27. The visual style should be: \x27".data ++ visualStyle ++ "\x27".data

/-- The strftime format for the month label (src/main.py line 95). -/
def monthFmt : List Char := "%B %Y".data

/-- The strftime format for the generation timestamp (src/main.py line 96). -/
def dateFmt : List Char := "%Y-%m-%d %H:%M:%S".data

/-- Modelled from the spec: the Jinja template `templates/dashboard.html` is
not under src/, so the rendered markup is taken from the specification of the
output artifact — for each post, in order, its idea text, caption text and
image URL, plus the human-readable month and the generation timestamp. -/
def postBlock (p : Post) : List Char :=
  "\n<section>\n".data ++ p.idea ++ "\n".data ++ p.caption ++
    "\n".data ++ p.image_path ++ "\n</section>".data

/-- Modelled from the spec: the full rendered report content, a pure
function of the posts, the month label and the timestamp string. -/
def renderTemplate (posts : List Post) (month generation_date : List Char) : List Char :=
  "<h1>Content Plan for ".data ++ month ++ "</h1>\nGenerated: ".data ++
    generation_date ++ (posts.map postBlock).flatten

/-- `generate_dashboard` (src/main.py lines 87-106): read the clock once,
derive the month label and timestamp via strftime, render the template and
write the result; the returned value is the written file content.  `dt` is
the strftime oracle of the single `datetime.now()` value. -/
def generate_dashboard (dt : List Char → List Char) (posts : List Post) : List Char :=
  renderTemplate posts (dt monthFmt) (dt dateFmt)

/-- The observable outcome of one run of `main` (src/main.py lines 110-138):
whether `generate_post_ideas` was invoked, how many caption and image calls
the loop made, the assembled posts, and the dashboard file content
(`none` when `generate_dashboard` was never invoked and nothing was
written). -/
structure RunResult where
  ideasRequested : Bool
  captionCalls : Nat
  imageCalls : Nat
  posts : List Post
  written : Option (List Char)
deriving DecidableEq

/-- The `for i, idea in enumerate(ideas, 1)` loop of `main`
(src/main.py lines 122-136): one caption call and one image call per idea,
appending the assembled Post; `captionSvc i` is the outcome of the caption
service call of iteration `i` and `imageFails i` whether the image body
raised there. -/
def buildPosts (captionSvc : Nat → Except Unit (List Char)) (imageFails : Nat → Bool)
    (visualStyle : List Char) : Nat → List (List Char) → List Post
  | _, [] => []
  | i, idea :: rest =>
    { idea := idea,
      caption := generate_caption (captionSvc i),
      image_path := generate_image (imagePromptFor idea visualStyle) i (imageFails i) } ::
    buildPosts captionSvc imageFails visualStyle (i + 1) rest

/-- `main` (src/main.py lines 110-138).  `strategyLoad` is the outcome of
`load_strategy()` — the parsed JSON document, or a propagated exception when
the file is missing or malformed (`main` has no handler, the process
aborts).  `visualStyle` is the strategy field read by the image-prompt
f-string.  The loop makes one caption call and one image call per idea. -/
def mainRun (strategyLoad : Except Unit Json) (visualStyle : List Char)
    (ideaSvc : Except Unit (List Char)) (captionSvc : Nat → Except Unit (List Char))
    (imageFails : Nat → Bool) (dt : List Char → List Char) : Except Unit RunResult :=
  match strategyLoad with
  | .error e => .error e
  | .ok strategy =>
    if strategy.truthy then
      let ideas := generate_post_ideas ideaSvc
      if ideas.isEmpty then
        .ok { ideasRequested := true, captionCalls := 0, imageCalls := 0,
              posts := [], written := none }
      else
        let posts := buildPosts captionSvc imageFails visualStyle 1 ideas
        .ok { ideasRequested := true, captionCalls := ideas.length,
              imageCalls := ideas.length, posts := posts,
              written := some (generate_dashboard dt posts) }
    else
      .ok { ideasRequested := false, captionCalls := 0, imageCalls := 0,
            posts := [], written := none }

/-- A well-formed numbered-list line together with its sentence: a non-empty
numeral, the delimiter ". ", then a non-empty sentence that spans one line
and carries no trailing whitespace (trailing whitespace belongs to the
line formatting, not to a sentence). -/
def WFLine (line s : List Char) : Prop :=
  (∃ k, k ≠ [] ∧ (∀ c ∈ k, c.isDigit = true) ∧ line = k ++ '.' :: ' ' :: s) ∧
    s ≠ [] ∧ rstripL s = s ∧ '\n' ∉ s

/-! Concrete texts used by witnesses and counterexamples. -/

def txtNothing : List Char := "nothing here".data

def txtOneAlpha : List Char := "1. Alpha".data

def txtTwoBeta : List Char := "2. Beta".data

def txtAlphaBeta : List Char := "1. Alpha\n2. Beta".data

def sentAlpha : List Char := "Alpha".data

def sentBeta : List Char := "Beta".data

def txtDoubleSpaceHi : List Char := "1.  hi".data

def ideaSpaceHi : List Char := " hi".data

def txtOneHi : List Char := "1. hi".data

def ideaHi : List Char := "hi".data

def txtBareNumber : List Char := "1. ".data

def txtBareThenGood : List Char := "1. \n2. hello".data

def txtTwoHello : List Char := "2. hello".data

def sentHello : List Char := "hello".data

def txtX : List Char := "x".data

def postTag : List Char := "Post+".data

def postTag1 : List Char := "Post+1".data

def imageUrlStem : List Char :=
  "https://placehold.co/600x400/1E90FF/FFFFFF?text=Image+for+".data

theorem isPrefixOf_append_self : ∀ (l t : List Char), l.isPrefixOf (l ++ t) = true
  | [], _ => by simp [List.isPrefixOf]
  | c :: l, t => by simp [List.isPrefixOf, isPrefixOf_append_self l t]

theorem isPrefixOf_self (l : List Char) : l.isPrefixOf l = true := by
  have h := isPrefixOf_append_self l []
  rwa [List.append_nil] at h

theorem containsSub_of_isPrefixOf {pat s : List Char} (h : pat.isPrefixOf s = true) :
    containsSub pat s = true := by
  cases s with
  | nil => simpa [containsSub] using h
  | cons c rest => simp [containsSub, h]

theorem containsSub_cons {pat s : List Char} (c : Char) (h : containsSub pat s = true) :
    containsSub pat (c :: s) = true := by
  simp [containsSub, h]

theorem containsSub_append_right {pat b : List Char} (a : List Char)
    (h : containsSub pat b = true) : containsSub pat (a ++ b) = true := by
  induction a with
  | nil => simpa using h
  | cons c a ih => simpa using containsSub_cons c ih

theorem containsSub_append_self (a pat : List Char) : containsSub pat (a ++ pat) = true :=
  containsSub_append_right a (containsSub_of_isPrefixOf (isPrefixOf_self pat))

theorem buildPosts_map_idea (csvc : Nat → Except Unit (List Char)) (ifl : Nat → Bool)
    (vs : List Char) : ∀ (i : Nat) (ideas : List (List Char)),
    (buildPosts csvc ifl vs i ideas).map Post.idea = ideas
  | _, [] => rfl
  | i, idea :: rest => by
    simp [buildPosts, buildPosts_map_idea csvc ifl vs (i + 1) rest]

/-- C2: if the text-generation service call made by generate_post_ideas
fails (raises), generate_post_ideas does not raise but returns the empty
list, and main, seeing the empty list, returns immediately: no caption or
image call is made and nothing is written. -/
theorem idea_service_failure_yields_empty_and_stops :
    generate_post_ideas (.error ()) = [] ∧
    ∀ (s : Json) (vs : List Char) (csvc : Nat → Except Unit (List Char))
      (ifl : Nat → Bool) (dt : List Char → List Char),
      s.truthy = true →
      mainRun (.ok s) vs (.error ()) csvc ifl dt =
        .ok { ideasRequested := true, captionCalls := 0, imageCalls := 0,
              posts := [], written := none } := by
  refine ⟨rfl, ?_⟩
  intro s vs csvc ifl dt h
  simp [mainRun, h, generate_post_ideas]

theorem idea_service_failure_yields_empty_and_stops_witness :
    Json.truthy (Json.num 1) = true ∧
    mainRun (.ok (Json.num 1)) [] (.error ()) (fun _ => .error ()) (fun _ => false)
        (fun _ => []) =
      .ok { ideasRequested := true, captionCalls := 0, imageCalls := 0,
            posts := [], written := none } :=
  ⟨by decide,
    idea_service_failure_yields_empty_and_stops.2 (Json.num 1) [] (fun _ => .error ())
      (fun _ => false) (fun _ => []) (by decide)⟩

/-- C3: a failed caption call returns exactly the sentinel string and does
not raise; a successful one returns the response text stripped of
surrounding whitespace; and the loop builds one Post per idea regardless of
caption outcomes — no failure aborts the batch. -/
theorem caption_failure_is_sentinel_and_batch_continues :
    generate_caption (.error ()) = errCaption ∧
    (∀ r : List Char, generate_caption (.ok r) = stripL r) ∧
    ∀ (csvc : Nat → Except Unit (List Char)) (ifl : Nat → Bool) (vs : List Char)
      (i : Nat) (ideas : List (List Char)),
      (buildPosts csvc ifl vs i ideas).map Post.idea = ideas ∧
      (buildPosts csvc ifl vs i ideas).length = ideas.length := by
  refine ⟨rfl, fun r => rfl, ?_⟩
  intro csvc ifl vs i ideas
  have h := buildPosts_map_idea csvc ifl vs i ideas
  refine ⟨h, ?_⟩
  have := congrArg List.length h
  simpa using this

/-- C4: when generate_post_ideas comes back empty, main makes no caption
call, no image call, and never invokes generate_dashboard, so no report
content is written. -/
theorem empty_ideas_stop_run_with_no_output :
    ∀ (s : Json) (vs : List Char) (svc : Except Unit (List Char))
      (csvc : Nat → Except Unit (List Char)) (ifl : Nat → Bool)
      (dt : List Char → List Char),
      s.truthy = true → generate_post_ideas svc = [] →
      mainRun (.ok s) vs svc csvc ifl dt =
        .ok { ideasRequested := true, captionCalls := 0, imageCalls := 0,
              posts := [], written := none } := by
  intro s vs svc csvc ifl dt ht hi
  simp [mainRun, ht, hi]

theorem empty_ideas_stop_run_with_no_output_witness :
    Json.truthy (Json.num 1) = true ∧
    generate_post_ideas (.ok txtNothing) = [] ∧
    mainRun (.ok (Json.num 1)) [] (.ok txtNothing) (fun _ => .error ())
        (fun _ => false) (fun _ => []) =
      .ok { ideasRequested := true, captionCalls := 0, imageCalls := 0,
            posts := [], written := none } :=
  ⟨by decide, by decide,
    empty_ideas_stop_run_with_no_output (Json.num 1) [] (.ok txtNothing)
      (fun _ => .error ()) (fun _ => false) (fun _ => []) (by decide) (by decide)⟩

/-- C5: for any non-empty idea list coming back from generate_post_ideas,
the run succeeds with a posts collection whose Nth entry carries the Nth
idea, in generation order, and the dashboard is rendered from exactly that
ordered collection. -/
theorem posts_preserve_idea_order_through_report :
    ∀ (s : Json) (vs : List Char) (svc : Except Unit (List Char))
      (csvc : Nat → Except Unit (List Char)) (ifl : Nat → Bool)
      (dt : List Char → List Char),
      s.truthy = true → generate_post_ideas svc ≠ [] →
      ∃ r : RunResult,
        mainRun (.ok s) vs svc csvc ifl dt = .ok r ∧
        r.posts = buildPosts csvc ifl vs 1 (generate_post_ideas svc) ∧
        r.posts.map Post.idea = generate_post_ideas svc ∧
        (∀ n : Nat, (r.posts[n]?).map Post.idea = (generate_post_ideas svc)[n]?) ∧
        r.written = some (generate_dashboard dt r.posts) := by
  intro s vs svc csvc ifl dt ht hne
  have hie : (generate_post_ideas svc).isEmpty = false := by
    cases h : generate_post_ideas svc with
    | nil => exact absurd h hne
    | cons a l => rfl
  refine ⟨{ ideasRequested := true,
            captionCalls := (generate_post_ideas svc).length,
            imageCalls := (generate_post_ideas svc).length,
            posts := buildPosts csvc ifl vs 1 (generate_post_ideas svc),
            written := some (generate_dashboard dt
              (buildPosts csvc ifl vs 1 (generate_post_ideas svc))) },
    ?_, rfl, ?_, ?_, rfl⟩
  · simp [mainRun, ht, hie]
  · exact buildPosts_map_idea csvc ifl vs 1 (generate_post_ideas svc)
  · intro n
    conv_rhs => rw [← buildPosts_map_idea csvc ifl vs 1 (generate_post_ideas svc)]
    rw [List.getElem?_map]

theorem posts_preserve_idea_order_through_report_witness :
    Json.truthy (Json.num 1) = true ∧
    generate_post_ideas (.ok txtOneAlpha) ≠ [] ∧
    ∃ r : RunResult,
      mainRun (.ok (Json.num 1)) [] (.ok txtOneAlpha) (fun _ => .error ())
          (fun _ => false) (fun _ => []) = .ok r ∧
      r.posts = buildPosts (fun _ => .error ()) (fun _ => false) [] 1
          (generate_post_ideas (.ok txtOneAlpha)) ∧
      r.posts.map Post.idea = generate_post_ideas (.ok txtOneAlpha) ∧
      (∀ n : Nat, (r.posts[n]?).map Post.idea =
        (generate_post_ideas (.ok txtOneAlpha))[n]?) ∧
      r.written = some (generate_dashboard (fun _ => []) r.posts) :=
  ⟨by decide, by decide,
    posts_preserve_idea_order_through_report (Json.num 1) [] (.ok txtOneAlpha)
      (fun _ => .error ()) (fun _ => false) (fun _ => []) (by decide) (by decide)⟩

/-- C7: generate_image is independent of its prompt, returns the templated
URL containing "Post+" followed by the post number when its body succeeds,
returns the fixed error-placeholder URL when it fails, and in particular
the URL for post 1 contains "Post+1". -/
theorem image_url_encodes_post_number :
    ∀ (p₁ p₂ : List Char) (i : Nat),
      (generate_image p₁ i false = generate_image p₂ i false ∧
        generate_image p₁ i true = generate_image p₂ i true) ∧
      containsSub (postTag ++ (Nat.repr i).data) (generate_image p₁ i false) = true ∧
      generate_image p₁ i true = errImageUrl ∧
      containsSub postTag1 (generate_image p₁ 1 false) = true := by
  intro p₁ p₂ i
  refine ⟨⟨rfl, rfl⟩, ?_, rfl, ?_⟩
  · show containsSub _ (imageUrlBase ++ (Nat.repr i).data) = true
    have hb : imageUrlBase = imageUrlStem ++ postTag := by decide
    rw [hb, List.append_assoc]
    exact containsSub_append_self _ _
  · show containsSub postTag1 (imageUrlBase ++ (Nat.repr 1).data) = true
    decide

/-- C9: the rendered dashboard content is a pure function of the posts
collection, the month label and the timestamp string — two renders with
equal posts and an equal clock produce byte-identical content. -/
theorem dashboard_render_is_deterministic :
    ∀ (posts₁ posts₂ : List Post) (dt₁ dt₂ : List Char → List Char),
      posts₁ = posts₂ → dt₁ monthFmt = dt₂ monthFmt → dt₁ dateFmt = dt₂ dateFmt →
      generate_dashboard dt₁ posts₁ = generate_dashboard dt₂ posts₂ := by
  intro posts₁ posts₂ dt₁ dt₂ hp hm hd
  subst hp
  unfold generate_dashboard
  rw [hm, hd]

theorem dashboard_render_is_deterministic_witness :
    generate_dashboard (fun _ => txtX) [] =
      generate_dashboard (fun f => txtX ++ f.drop f.length) [] :=
  dashboard_render_is_deterministic [] [] (fun _ => txtX)
    (fun f => txtX ++ f.drop f.length) rfl (by decide) (by decide)

/-- C10: a strategy file that parses to the falsy value obj [] makes
load_strategy succeed, after which main returns at its truthiness check:
no idea generation happens and nothing is written, with no error
reported. -/
theorem falsy_strategy_returns_silently :
    ∀ (vs : List Char) (svc : Except Unit (List Char))
      (csvc : Nat → Except Unit (List Char)) (ifl : Nat → Bool)
      (dt : List Char → List Char),
      Json.truthy (Json.obj []) = false ∧
      mainRun (.ok (Json.obj [])) vs svc csvc ifl dt =
        .ok { ideasRequested := false, captionCalls := 0, imageCalls := 0,
              posts := [], written := none } := by
  intro vs svc csvc ifl dt
  exact ⟨rfl, rfl⟩

theorem nil_isPrefixOf (x : List Char) : ([] : List Char).isPrefixOf x = true := by
  cases x <;> rfl

theorem isPrefixOf_extend : ∀ (l m b : List Char),
    l.isPrefixOf m = true → l.isPrefixOf (m ++ b) = true
  | [], _, _, _ => by simp [List.isPrefixOf]
  | c :: l, [], b, h => by simp [List.isPrefixOf] at h
  | c :: l, d :: m, b, h => by
    simp only [List.isPrefixOf, Bool.and_eq_true, beq_iff_eq] at h ⊢
    exact ⟨h.1, isPrefixOf_extend l m b h.2⟩

theorem containsSub_append_left {pat : List Char} :
    ∀ (a b : List Char), containsSub pat a = true → containsSub pat (a ++ b) = true
  | [], b, h => by
    have hp : pat.isPrefixOf [] = true := by simpa [containsSub] using h
    have hpe : pat = [] := by
      cases pat with
      | nil => rfl
      | cons c p => simp [List.isPrefixOf] at hp
    subst hpe
    exact containsSub_of_isPrefixOf (nil_isPrefixOf b)
  | c :: a, b, h => by
    simp only [containsSub, Bool.or_eq_true] at h
    rcases h with hp | hc
    · exact containsSub_of_isPrefixOf (isPrefixOf_extend _ _ b hp)
    · exact containsSub_cons c (containsSub_append_left a b hc)

theorem rstripL_cons_nil (c : Char) {t : List Char} (h : rstripL t = []) :
    rstripL (c :: t) = if isPySpace c = true then [] else [c] := by
  conv_lhs => rw [rstripL]
  rw [h]

theorem rstripL_cons_cons (c : Char) {t d r} (h : rstripL t = d :: r) :
    rstripL (c :: t) = c :: d :: r := by
  conv_lhs => rw [rstripL]
  rw [h]

theorem rstrip_cons_fixed (c : Char) {t : List Char} (h : rstripL t = t) (hne : t ≠ []) :
    rstripL (c :: t) = c :: t := by
  cases t with
  | nil => exact absurd rfl hne
  | cons d r => exact rstripL_cons_cons c h

theorem rstripL_append : ∀ (a b : List Char), rstripL b ≠ [] →
    rstripL (a ++ b) = a ++ rstripL b
  | [], b, h => rfl
  | c :: a, b, h => by
    have ih := rstripL_append a b h
    cases hs : a ++ rstripL b with
    | nil => exact absurd (List.append_eq_nil.mp hs).2 h
    | cons d r =>
      rw [hs] at ih
      show rstripL (c :: (a ++ b)) = c :: (a ++ rstripL b)
      rw [rstripL_cons_cons c ih, hs]

theorem rstrip_fixed_suffix : ∀ (a r : List Char),
    rstripL (a ++ r) = a ++ r → rstripL r = r
  | [], r, h => h
  | c :: a, r, h => by
    rw [List.cons_append] at h
    cases hm : rstripL (a ++ r) with
    | nil =>
      rw [rstripL_cons_nil c hm] at h
      by_cases hw : isPySpace c = true
      · rw [if_pos hw] at h
        exact absurd h.symm (List.cons_ne_nil c (a ++ r))
      · rw [if_neg hw] at h
        have har : ([] : List Char) = a ++ r := congrArg List.tail h
        have hr : r = [] := (List.append_eq_nil.mp har.symm).2
        subst hr
        rfl
    | cons d t =>
      rw [rstripL_cons_cons c hm] at h
      have hdt : d :: t = a ++ r := congrArg List.tail h
      exact rstrip_fixed_suffix a r (by rw [hm, hdt])

theorem rstripL_idem : ∀ l : List Char, rstripL (rstripL l) = rstripL l
  | [] => rfl
  | c :: rest => by
    have ih := rstripL_idem rest
    cases hm : rstripL rest with
    | nil =>
      rw [rstripL_cons_nil c hm]
      by_cases hw : isPySpace c = true
      · rw [if_pos hw]
        rfl
      · rw [if_neg hw]
        rw [rstripL_cons_nil c (rfl : rstripL ([] : List Char) = []), if_neg hw]
    | cons d t =>
      rw [rstripL_cons_cons c hm]
      rw [hm] at ih
      exact rstripL_cons_cons c ih

theorem lstrip_cons_fixed {c : Char} (t : List Char) (h : isPySpace c = false) :
    lstripL (c :: t) = c :: t := by
  simp [lstripL, List.dropWhile_cons, h]

theorem containsSub_stripL {pat s : List Char} (h : containsSub pat (stripL s) = true) :
    containsSub pat s = true := by
  obtain ⟨t, ht⟩ : ∃ t, lstripL s = rstripL (lstripL s) ++ t := by
    clear h
    generalize lstripL s = u
    induction u with
    | nil => exact ⟨[], rfl⟩
    | cons c rest ih =>
      obtain ⟨t, ht⟩ := ih
      cases hm : rstripL rest with
      | nil =>
        by_cases hw : isPySpace c = true
        · refine ⟨c :: rest, ?_⟩
          rw [rstripL_cons_nil c hm, if_pos hw]
          rfl
        · refine ⟨rest, ?_⟩
          rw [rstripL_cons_nil c hm, if_neg hw]
          rfl
      | cons d r =>
        refine ⟨t, ?_⟩
        rw [rstripL_cons_cons c hm]
        rw [hm] at ht
        rw [List.cons_append]
        exact congrArg (List.cons c) ht
  have h1 : containsSub pat (lstripL s) = true := by
    rw [ht]
    exact containsSub_append_left _ t h
  have h2 : s = s.takeWhile isPySpace ++ lstripL s := (List.takeWhile_append_dropWhile isPySpace s).symm
  rw [h2]
  exact containsSub_append_right _ h1

theorem splitLines_shape : ∀ s : List Char, ∃ h t, splitLines s = h :: t
  | [] => ⟨[], [], rfl⟩
  | c :: rest => by
    by_cases hc : c = '\n'
    · exact ⟨[], splitLines rest, by simp [splitLines, hc]⟩
    · obtain ⟨h, t, hm⟩ := splitLines_shape rest
      exact ⟨c :: h, t, by simp [splitLines, hc, hm]⟩

theorem splitLines_append : ∀ (l s : List Char) (h₀ : List Char) (t₀ : List (List Char)),
    '\n' ∉ l → splitLines s = h₀ :: t₀ → splitLines (l ++ s) = (l ++ h₀) :: t₀ := by
  intro l
  induction l with
  | nil =>
    intro s h₀ t₀ _ hs
    simpa using hs
  | cons c l ih =>
    intro s h₀ t₀ hnl hs
    have hc : ¬(c = '\n') := fun he => hnl (he ▸ List.mem_cons_self c l)
    have hrec := ih s h₀ t₀ (fun hm => hnl (List.mem_cons_of_mem c hm)) hs
    show splitLines (c :: (l ++ s)) = ((c :: l) ++ h₀) :: t₀
    simp [splitLines, hc, hrec]

theorem splitLines_joinLines : ∀ (ls : List (List Char)), ls ≠ [] →
    (∀ l ∈ ls, '\n' ∉ l) → splitLines (joinLines ls) = ls
  | [], h, _ => absurd rfl h
  | [l], _, hnl => by
    have h := splitLines_append l [] [] [] (hnl l (List.mem_cons_self l [])) rfl
    simpa [joinLines] using h
  | l :: l₂ :: ls, _, hnl => by
    have hrec := splitLines_joinLines (l₂ :: ls) (by simp)
      (fun x hx => hnl x (List.mem_cons_of_mem l hx))
    have h2 : splitLines ('\n' :: joinLines (l₂ :: ls)) = [] :: l₂ :: ls := by
      simp [splitLines, hrec]
    have h3 := splitLines_append l ('\n' :: joinLines (l₂ :: ls)) [] (l₂ :: ls)
      (hnl l (List.mem_cons_self l (l₂ :: ls))) h2
    simpa [joinLines] using h3

theorem joinLines_splitLines : ∀ s : List Char, joinLines (splitLines s) = s := by
  intro s
  induction s with
  | nil => rfl
  | cons c rest ih =>
    by_cases hc : c = '\n'
    · subst hc
      obtain ⟨h₀, t₀, hs₀⟩ := splitLines_shape rest
      have hsp : splitLines ('\n' :: rest) = [] :: h₀ :: t₀ := by simp [splitLines, hs₀]
      rw [hsp]
      show [] ++ '\n' :: joinLines (h₀ :: t₀) = '\n' :: rest
      rw [← hs₀, ih]
      rfl
    · obtain ⟨h₀, t₀, hs₀⟩ := splitLines_shape rest
      have hsp : splitLines (c :: rest) = (c :: h₀) :: t₀ := by simp [splitLines, hc, hs₀]
      rw [hsp]
      have hj : joinLines (h₀ :: t₀) = rest := by rw [← hs₀]; exact ih
      cases t₀ with
      | nil =>
        show c :: h₀ = c :: rest
        rw [show h₀ = rest from hj]
      | cons u t =>
        show (c :: h₀) ++ '\n' :: joinLines (u :: t) = c :: rest
        rw [List.cons_append]
        rw [show h₀ ++ '\n' :: joinLines (u :: t) = rest from hj]

theorem delim_of_mem_join : ∀ (ls : List (List Char)) (l : List Char), l ∈ ls →
    containsSub delim l = true → containsSub delim (joinLines ls) = true
  | [], l, hm, _ => by simp at hm
  | [a], l, hm, hl => by
    rcases List.mem_cons.mp hm with he | hm'
    · subst he
      simpa [joinLines] using hl
    · simp at hm'
  | a :: b :: ls, l, hm, hl => by
    rcases List.mem_cons.mp hm with he | hm'
    · subst he
      show containsSub delim (l ++ '\n' :: joinLines (b :: ls)) = true
      exact containsSub_append_left _ _ hl
    · have hrec := delim_of_mem_join (b :: ls) l hm' hl
      show containsSub delim (a ++ '\n' :: joinLines (b :: ls)) = true
      exact containsSub_append_right a (containsSub_cons '\n' hrec)

theorem containsSub_of_mem_splitLines {s l : List Char} (hm : l ∈ splitLines s)
    (hl : containsSub delim l = true) : containsSub delim s = true := by
  have h := delim_of_mem_join (splitLines s) l hm hl
  rwa [joinLines_splitLines] at h

theorem exists_line_of_delim : ∀ s : List Char, containsSub delim s = true →
    ∃ l ∈ splitLines s, containsSub delim l = true := by
  intro s
  induction s with
  | nil => intro h; exact absurd h (by decide)
  | cons c rest ih =>
    intro h
    simp only [containsSub, Bool.or_eq_true] at h
    rcases h with hp | hc
    · have hcr : c = '.' ∧ ∃ r, rest = ' ' :: r := by
        cases rest with
        | nil => simp [delim, List.isPrefixOf] at hp
        | cons d r =>
          simp only [delim, List.isPrefixOf, Bool.and_eq_true, beq_iff_eq] at hp
          exact ⟨hp.1.symm, r, by rw [← hp.2.1]⟩
      obtain ⟨he, r, hr⟩ := hcr
      subst he
      subst hr
      obtain ⟨h₀, t₀, hs₀⟩ := splitLines_shape r
      have hsp : splitLines ('.' :: ' ' :: r) = ('.' :: ' ' :: h₀) :: t₀ := by
        simp [splitLines, hs₀]
      rw [hsp]
      refine ⟨'.' :: ' ' :: h₀, List.mem_cons_self _ _, ?_⟩
      simp [containsSub, delim, List.isPrefixOf, nil_isPrefixOf]
    · obtain ⟨l, hm, hl⟩ := ih hc
      by_cases hcn : c = '\n'
      · subst hcn
        refine ⟨l, ?_, hl⟩
        rw [show splitLines ('\n' :: rest) = [] :: splitLines rest from by simp [splitLines]]
        exact List.mem_cons_of_mem _ hm
      · obtain ⟨h₀, t₀, hs₀⟩ := splitLines_shape rest
        have hsp : splitLines (c :: rest) = (c :: h₀) :: t₀ := by simp [splitLines, hcn, hs₀]
        rw [hs₀] at hm
        rcases List.mem_cons.mp hm with he | hmem
        · subst he
          refine ⟨c :: l, ?_, containsSub_cons c hl⟩
          rw [hsp]
          exact List.mem_cons_self _ _
        · refine ⟨l, ?_, hl⟩
          rw [hsp]
          exact List.mem_cons_of_mem _ hmem

theorem not_space_of_digit (c : Char) (h : c.isDigit = true) : isPySpace c = false := by
  cases hw : isPySpace c with
  | false => rfl
  | true =>
    exfalso
    simp only [isPySpace, Bool.or_eq_true, beq_iff_eq] at hw
    rcases hw with ((((h1 | h1) | h1) | h1) | h1) | h1 <;> subst h1 <;>
      exact absurd h (by decide)

theorem afterFirst_past_digits : ∀ (k s : List Char), (∀ c ∈ k, c.isDigit = true) →
    afterFirst delim (k ++ '.' :: ' ' :: s) = some s
  | [], s, _ => by
    show afterFirst delim ('.' :: ' ' :: s) = some s
    simp [afterFirst, delim, List.isPrefixOf, nil_isPrefixOf]
  | c :: k, s, hd => by
    have hc : c ≠ '.' := by
      intro he
      have := hd c (List.mem_cons_self c k)
      rw [he] at this
      exact absurd this (by decide)
    have hc' : ¬('.' = c) := fun he => hc he.symm
    have hpf : delim.isPrefixOf (c :: (k ++ '.' :: ' ' :: s)) = false := by
      simp [delim, List.isPrefixOf, hc']
    have ih := afterFirst_past_digits k s (fun x hx => hd x (List.mem_cons_of_mem c hx))
    show afterFirst delim (c :: (k ++ '.' :: ' ' :: s)) = some s
    simp [afterFirst, hpf, ih]

/-- The facts the parser needs about a well-formed line. -/
theorem WF_strip_facts {l s : List Char} (h : WFLine l s) :
    l ≠ [] ∧ rstripL l = l ∧ stripL l = l ∧ '\n' ∉ l ∧
      afterFirst delim l = some s ∧ containsSub delim l = true := by
  obtain ⟨⟨k, hk, hdig, hline⟩, hs, hrs, hnl⟩ := h
  obtain ⟨c, k', hkc⟩ : ∃ c k', k = c :: k' := by
    cases k with
    | nil => exact absurd rfl hk
    | cons c k' => exact ⟨c, k', rfl⟩
  have hws : isPySpace c = false :=
    not_space_of_digit c (hdig c (by rw [hkc]; exact List.mem_cons_self c k'))
  have hX : rstripL ('.' :: ' ' :: s) = '.' :: ' ' :: s := by
    have h1 : rstripL (' ' :: s) = ' ' :: s := rstrip_cons_fixed ' ' hrs hs
    exact rstrip_cons_fixed '.' h1 (List.cons_ne_nil ' ' s)
  have hlr : rstripL l = l := by
    rw [hline]
    rw [rstripL_append k ('.' :: ' ' :: s) (by rw [hX]; exact List.cons_ne_nil '.' (' ' :: s))]
    rw [hX]
  have hll : lstripL l = l := by
    rw [hline, hkc, List.cons_append]
    exact lstrip_cons_fixed _ hws
  have hstr : stripL l = l := by
    unfold stripL
    rw [hll, hlr]
  have hn : '\n' ∉ l := by
    rw [hline]
    intro hm
    rcases List.mem_append.mp hm with hm1 | hm2
    · have := hdig '\n' hm1
      exact absurd this (by decide)
    · rcases List.mem_cons.mp hm2 with he | hm3
      · exact absurd he (by decide)
      · rcases List.mem_cons.mp hm3 with he | hm4
        · exact absurd he (by decide)
        · exact hnl hm4
  have haf : afterFirst delim l = some s := by
    rw [hline]
    exact afterFirst_past_digits k s hdig
  have hcs : containsSub delim l = true := by
    rw [hline]
    exact containsSub_append_right k
      (containsSub_of_isPrefixOf (isPrefixOf_append_self delim s))
  exact ⟨by rw [hline, hkc]; simp, hlr, hstr, hn, haf, hcs⟩

theorem ideaOfLine_of_WF {l s : List Char} (h : WFLine l s) :
    ideaOfLine l = some (some s) := by
  obtain ⟨_, _, hstr, _, haf, hcs⟩ := WF_strip_facts h
  simp [ideaOfLine, hcs, hstr, haf]

theorem ideasOfLines_of_forall₂ {ls ss : List (List Char)}
    (h : List.Forall₂ WFLine ls ss) : ideasOfLines ls = some ss := by
  induction h with
  | nil => rfl
  | cons hw hrest ih =>
    have hio := ideaOfLine_of_WF hw
    simp [ideasOfLines, hio, ih]

theorem forall₂_line_facts {ls ss : List (List Char)} (h : List.Forall₂ WFLine ls ss) :
    ∀ x ∈ ls, x ≠ [] ∧ rstripL x = x ∧ '\n' ∉ x := by
  induction h with
  | nil => intro x hx; simp at hx
  | cons hw hrest ih =>
    intro x hx
    rcases List.mem_cons.mp hx with he | hx'
    · subst he
      obtain ⟨hne, hr, _, hn, _, _⟩ := WF_strip_facts hw
      exact ⟨hne, hr, hn⟩
    · exact ih x hx'

theorem rstrip_join : ∀ (l : List Char) (ls : List (List Char)),
    (∀ x ∈ (l :: ls), x ≠ [] ∧ rstripL x = x) →
    rstripL (joinLines (l :: ls)) = joinLines (l :: ls) ∧ joinLines (l :: ls) ≠ []
  | l, [], h => by
    obtain ⟨hne, hr⟩ := h l (List.mem_cons_self l [])
    exact ⟨by simpa [joinLines] using hr, by simpa [joinLines] using hne⟩
  | l, l₂ :: ls, h => by
    obtain ⟨hJ, hJne⟩ := rstrip_join l₂ ls (fun x hx => h x (List.mem_cons_of_mem l hx))
    have hnl : rstripL ('\n' :: joinLines (l₂ :: ls)) = '\n' :: joinLines (l₂ :: ls) :=
      rstrip_cons_fixed '\n' hJ hJne
    constructor
    · show rstripL (l ++ '\n' :: joinLines (l₂ :: ls)) = l ++ '\n' :: joinLines (l₂ :: ls)
      rw [rstripL_append l _ (by rw [hnl]; exact List.cons_ne_nil _ _), hnl]
    · show l ++ '\n' :: joinLines (l₂ :: ls) ≠ []
      simp

theorem joinLines_cons_eq : ∀ (l : List Char) (ls : List (List Char)),
    ∃ t, joinLines (l :: ls) = l ++ t
  | l, [] => ⟨[], by simp [joinLines]⟩
  | l, l₂ :: ls => ⟨'\n' :: joinLines (l₂ :: ls), rfl⟩

/-- Core of claim C1: a response assembled from well-formed numbered lines
parses to exactly the sentences, in order. -/
theorem parse_wf_lines : ∀ (lines sents : List (List Char)),
    List.Forall₂ WFLine lines sents →
    generate_post_ideas (.ok (joinLines lines)) = sents := by
  intro lines sents hf
  cases hf with
  | nil => decide
  | @cons l s ls ss hw hrest =>
    have hfacts := forall₂_line_facts (List.Forall₂.cons hw hrest)
    have hrj := rstrip_join l ls (fun x hx => ⟨(hfacts x hx).1, (hfacts x hx).2.1⟩)
    obtain ⟨k, hk, hdig, hline⟩ := hw.1
    obtain ⟨c, k', hkc⟩ : ∃ c k', k = c :: k' := by
      cases k with
      | nil => exact absurd rfl hk
      | cons c k' => exact ⟨c, k', rfl⟩
    obtain ⟨t, hjoin⟩ := joinLines_cons_eq l ls
    have hws : isPySpace c = false :=
      not_space_of_digit c (hdig c (by rw [hkc]; exact List.mem_cons_self c k'))
    have hlfix : lstripL (joinLines (l :: ls)) = joinLines (l :: ls) := by
      rw [hjoin, hline, hkc]
      simp only [List.cons_append, List.append_assoc]
      exact lstrip_cons_fixed _ hws
    have hstrip : stripL (joinLines (l :: ls)) = joinLines (l :: ls) := by
      unfold stripL
      rw [hlfix, hrj.1]
    have hsplit : splitLines (joinLines (l :: ls)) = l :: ls :=
      splitLines_joinLines (l :: ls) (by simp) (fun x hx => (hfacts x hx).2.2)
    have hideas : ideasOfLines (l :: ls) = some (s :: ss) :=
      ideasOfLines_of_forall₂ (List.Forall₂.cons hw hrest)
    show parse_ideas (joinLines (l :: ls)) = s :: ss
    unfold parse_ideas
    rw [hstrip, hsplit, hideas]

/-- Second part of claim C1: a line without the delimiter contributes
nothing to the parsed ideas. -/
theorem dropped_lines : ∀ (pre post : List (List Char)) (l : List Char),
    containsSub delim l = false →
    ideasOfLines (pre ++ l :: post) = ideasOfLines (pre ++ post) := by
  intro pre post l h
  have hl : ideaOfLine l = some none := by simp [ideaOfLine, h]
  induction pre with
  | nil => simp [ideasOfLines, hl]
  | cons a pre ih =>
    show ideasOfLines (a :: (pre ++ l :: post)) = ideasOfLines (a :: (pre ++ post))
    conv_lhs => rw [ideasOfLines]
    conv_rhs => rw [ideasOfLines]
    rw [ih]

theorem ideasOfLines_filtered : ∀ ls : List (List Char),
    (∀ l ∈ ls, containsSub delim l = false) → ideasOfLines ls = some []
  | [], _ => rfl
  | l :: ls, h => by
    have h₁ : ideaOfLine l = some none := by
      simp [ideaOfLine, h l (List.mem_cons_self l ls)]
    have h₂ := ideasOfLines_filtered ls (fun x hx => h x (List.mem_cons_of_mem l hx))
    simp [ideasOfLines, h₁, h₂]

/-- Third part of claim C1: a response none of whose lines contains the
delimiter parses to the empty list. -/
theorem no_delim_empty : ∀ text : List Char,
    (∀ l ∈ splitLines text, containsSub delim l = false) →
    generate_post_ideas (.ok text) = [] := by
  intro text h
  have htext : containsSub delim text = false := by
    cases hc : containsSub delim text with
    | false => rfl
    | true =>
      obtain ⟨l, hmem, hl⟩ := exists_line_of_delim text hc
      have hf := h l hmem
      rw [hf] at hl
      simp at hl
  have hstrip : containsSub delim (stripL text) = false := by
    cases hc : containsSub delim (stripL text) with
    | false => rfl
    | true =>
      have := containsSub_stripL hc
      rw [htext] at this
      simp at this
  have hall : ∀ l ∈ splitLines (stripL text), containsSub delim l = false := by
    intro l hmem
    cases hc : containsSub delim l with
    | false => rfl
    | true =>
      have := containsSub_of_mem_splitLines hmem hc
      rw [hstrip] at this
      simp at this
  show parse_ideas text = []
  unfold parse_ideas
  rw [ideasOfLines_filtered _ hall]

theorem afterFirst_append : ∀ (s r : List Char), afterFirst delim s = some r → ∃ a, s = a ++ r
  | [], r, h => by simp [afterFirst, List.isPrefixOf, delim] at h
  | c :: rest, r, h => by
    by_cases hp : delim.isPrefixOf (c :: rest) = true
    · have hcr : c = '.' ∧ ∃ r', rest = ' ' :: r' := by
        cases rest with
        | nil => simp [delim, List.isPrefixOf] at hp
        | cons d rr =>
          simp only [delim, List.isPrefixOf, Bool.and_eq_true, beq_iff_eq] at hp
          exact ⟨hp.1.symm, rr, by rw [← hp.2.1]⟩
      obtain ⟨he, r', hr'⟩ := hcr
      subst he
      subst hr'
      rw [show afterFirst delim ('.' :: ' ' :: r') = some r' from by
        simp [afterFirst, delim, List.isPrefixOf, nil_isPrefixOf]] at h
      have : r' = r := by simpa using h
      subst this
      exact ⟨['.', ' '], rfl⟩
    · have hb : delim.isPrefixOf (c :: rest) = false := by
        cases hx : delim.isPrefixOf (c :: rest) with
        | false => rfl
        | true => exact absurd hx hp
      have hstep : afterFirst delim (c :: rest) = afterFirst delim rest := by
        simp [afterFirst, hb]
      rw [hstep] at h
      obtain ⟨a, ha⟩ := afterFirst_append rest r h
      exact ⟨c :: a, by rw [List.cons_append, ← ha]⟩

theorem ideasOfLines_mem : ∀ (ls xs : List (List Char)),
    ideasOfLines ls = some xs → ∀ x ∈ xs, ∃ l ∈ ls, ideaOfLine l = some (some x)
  | [], xs, h => by
    intro x hx
    have hxs : xs = [] := by simpa [ideasOfLines] using h.symm
    subst hxs
    simp at hx
  | l :: ls, xs, h => by
    intro x hx
    rw [ideasOfLines] at h
    cases h₁ : ideaOfLine l with
    | none =>
      rw [h₁] at h
      simp at h
    | some o =>
      cases o with
      | none =>
        rw [h₁] at h
        obtain ⟨l', hm, hio⟩ := ideasOfLines_mem ls xs (by simpa using h) x hx
        exact ⟨l', List.mem_cons_of_mem l hm, hio⟩
      | some y =>
        rw [h₁] at h
        cases h₂ : ideasOfLines ls with
        | none =>
          rw [h₂] at h
          simp at h
        | some ys =>
          rw [h₂] at h
          have hxs : xs = y :: ys := by simpa using h.symm
          subst hxs
          rcases List.mem_cons.mp hx with he | hmem
          · subst he
            exact ⟨l, List.mem_cons_self l ls, h₁⟩
          · obtain ⟨l', hm, hio⟩ := ideasOfLines_mem ls ys h₂ x hmem
            exact ⟨l', List.mem_cons_of_mem l hm, hio⟩

/-- C6 (amended): every idea returned by generate_post_ideas carries no
trailing whitespace, because it is a suffix of the whitespace-stripped line
it was cut from; the counterexample theorem shows leading whitespace can
survive, so full trimming fails. -/
theorem ideas_have_no_trailing_whitespace :
    ∀ (svc : Except Unit (List Char)) (idea : List Char),
      idea ∈ generate_post_ideas svc → rstripL idea = idea := by
  intro svc idea hm
  cases svc with
  | error e => simp [generate_post_ideas] at hm
  | ok text =>
    have hm' : idea ∈ parse_ideas text := hm
    unfold parse_ideas at hm'
    cases hq : ideasOfLines (splitLines (stripL text)) with
    | none =>
      rw [hq] at hm'
      simp at hm'
    | some xs =>
      rw [hq] at hm'
      obtain ⟨l, hlm, hio⟩ := ideasOfLines_mem _ _ hq idea (by simpa using hm')
      have haf : afterFirst delim (stripL l) = some idea := by
        by_cases hc : containsSub delim l = true
        · unfold ideaOfLine at hio
          rw [if_pos hc] at hio
          cases ha : afterFirst delim (stripL l) with
          | none =>
            rw [ha] at hio
            simp at hio
          | some r =>
            rw [ha] at hio
            have : r = idea := by simpa using hio
            rw [this]
        · unfold ideaOfLine at hio
          rw [if_neg hc] at hio
          simp at hio
      obtain ⟨a, ha⟩ := afterFirst_append _ _ haf
      have hfix : rstripL (stripL l) = stripL l := by
        unfold stripL
        exact rstripL_idem (lstripL l)
      rw [ha] at hfix
      exact rstrip_fixed_suffix a idea hfix

theorem ideas_have_no_trailing_whitespace_witness :
    ideaHi ∈ generate_post_ideas (.ok txtOneHi) ∧ rstripL ideaHi = ideaHi :=
  ⟨by decide, ideas_have_no_trailing_whitespace (.ok txtOneHi) ideaHi (by decide)⟩

/-- C6 counterexample: the response consisting of the single line
"1.  hi" (two spaces after the period) yields the idea " hi", which keeps
its leading space — the parser strips the line before splitting, never the
extracted sentence, so ideas are not trimmed of leading whitespace. -/
theorem idea_keeps_leading_whitespace :
    generate_post_ideas (.ok txtDoubleSpaceHi) = [ideaSpaceHi] ∧
    ideaSpaceHi.head? = some ' ' ∧
    lstripL ideaSpaceHi ≠ ideaSpaceHi ∧ stripL ideaSpaceHi ≠ ideaSpaceHi := by
  refine ⟨by decide, by decide, by decide, by decide⟩

/-- C1: a response of well-formed numbered lines parses to exactly its
sentences in order; a line without the delimiter ". " contributes nothing;
and a response with no delimiter-bearing line at all parses to the empty
list. -/
theorem numbered_list_parsing_contract :
    (∀ lines sents : List (List Char), List.Forall₂ WFLine lines sents →
      generate_post_ideas (.ok (joinLines lines)) = sents) ∧
    (∀ (pre post : List (List Char)) (l : List Char), containsSub delim l = false →
      ideasOfLines (pre ++ l :: post) = ideasOfLines (pre ++ post)) ∧
    (∀ text : List Char, (∀ l ∈ splitLines text, containsSub delim l = false) →
      generate_post_ideas (.ok text) = []) :=
  ⟨parse_wf_lines, dropped_lines, no_delim_empty⟩

theorem numbered_list_parsing_contract_witness :
    generate_post_ideas (.ok txtAlphaBeta) = [sentAlpha, sentBeta] ∧
    generate_post_ideas (.ok txtNothing) = [] := by
  constructor
  · have hwf1 : WFLine txtOneAlpha sentAlpha :=
      ⟨⟨['1'], by decide, by decide, by decide⟩, by decide, by decide, by decide⟩
    have hwf2 : WFLine txtTwoBeta sentBeta :=
      ⟨⟨['2'], by decide, by decide, by decide⟩, by decide, by decide, by decide⟩
    have h := numbered_list_parsing_contract.1 [txtOneAlpha, txtTwoBeta] [sentAlpha, sentBeta]
      (List.Forall₂.cons hwf1 (List.Forall₂.cons hwf2 List.Forall₂.nil))
    rw [show joinLines [txtOneAlpha, txtTwoBeta] = txtAlphaBeta from by decide] at h
    exact h
  · exact numbered_list_parsing_contract.2.2 txtNothing (by decide)

/-- C8: the response whose first line is "1. " (numeral, period, trailing
space, not at the end of the text) passes the substring guard but its
stripped form "1." has no ". " left, so the split raises IndexError, the
blanket except catches it, and the whole response — including its
well-formed second line "2. hello" — yields no ideas at all. -/
theorem index_error_discards_all_ideas :
    containsSub delim txtBareNumber = true ∧
    containsSub delim (stripL txtBareNumber) = false ∧
    afterFirst delim (stripL txtBareNumber) = none ∧
    ideaOfLine txtBareNumber = none ∧
    WFLine txtTwoHello sentHello ∧
    splitLines (stripL txtBareThenGood) = [txtBareNumber, txtTwoHello] ∧
    ideasOfLines (splitLines (stripL txtBareThenGood)) = none ∧
    generate_post_ideas (.ok txtBareThenGood) = [] := by
  refine ⟨by decide, by decide, by decide, by decide, ?_, by decide, by decide, by decide⟩
  exact ⟨⟨['2'], by decide, by decide, by decide⟩, by decide, by decide, by decide⟩
